import Mathlib

/-!
# Verification of the ujsonpath core (lexer / parser / evaluator)

Shallow embedding of `ujsonpath/ujsonpath.py`: JSON documents are an
inductive tree, Python exceptions are an explicit error type, and the
tokenizer / parser / evaluator are translated function by function.
Python machine strings are modelled as `List Char`; `String` is used for
stored selector keys and object keys.
-/

set_option maxHeartbeats 1000000

namespace UJsonPath

/-- Python exception kinds that the library raises or catches. -/
inductive PyErr where
  | typeError
  | keyError
  | indexError
  | valueError
  | notImplemented
  deriving DecidableEq, Repr

/-- The in-memory JSON document tree (`json.loads` output shape): maps are
string-keyed association lists in insertion order, numbers are integers
(fractional values play no role in any claim). -/
inductive JsonValue where
  | null
  | bool (b : Bool)
  | num (n : Int)
  | str (s : String)
  | arr (xs : List JsonValue)
  | obj (kvs : List (String × JsonValue))

/-- A `Match` (`value`, `path`) or the `MatchNotFound` sentinel, the two
kinds of element the evaluator's result lists hold. -/
inductive MValue where
  | m (value : JsonValue) (path : Option String)
  | notFound

/-- `MatchNotFound.value` is the class attribute `None`; `Match.value` is
the stored payload. -/
def MValue.value : MValue → JsonValue
  | .m v _ => v
  | .notFound => .null

def MValue.isNotFound : MValue → Bool
  | .notFound => true
  | _ => false

/-- One selector key: either a genuine integer (from the `[int(...)]`
branch of `parse`) or a string identifier. -/
inductive SelKey where
  | intKey (i : Int)
  | strKey (s : String)
  deriving Repr

/-- The combinator attached to a selector key list: a plain Python `list`,
`UnionOperator` or `OrOperator`. -/
inductive Comb where
  | plain
  | union
  | alternation
  deriving DecidableEq, Repr

/-- The kind-specific node payload (`Node.value` in the source). -/
inductive NodeValue where
  | noval
  | slice (start stop step : Option Int)
  | raw (s : String)
  | keys (comb : Comb) (ks : List SelKey)

/-- The node-type classes of the source (`IdentifierNodeType` is literally
`IndexNodeType`, hence one `index` kind). -/
inductive NodeType where
  | root
  | selfNode
  | wildcard
  | descendant
  | sliceNode
  | expression
  | filterNode
  | index
  deriving DecidableEq, Repr

/-- `Node = namedtuple('Node', 'type, value')`. -/
structure Node where
  type : NodeType
  value : NodeValue

/-- `class JsonPath` (just the node list; `find` is defined below). -/
structure JsonPath where
  nodes : List Node

/-! ## Python string and container primitives -/

/-- Strip characters satisfying `p` from both ends (`str.strip`). -/
def stripBy (p : Char → Bool) (l : List Char) : List Char :=
  ((l.dropWhile p).reverse.dropWhile p).reverse

/-- `str.strip()` (whitespace). -/
def stripWs (l : List Char) : List Char := stripBy Char.isWhitespace l

/-- `str.strip(' ')`. -/
def stripSpace (l : List Char) : List Char := stripBy (· = ' ') l

/-- `str.split(sep)` for a one-character separator: keeps empty pieces. -/
def pySplit (c : Char) : List Char → List (List Char)
  | [] => [[]]
  | x :: xs =>
    if x = c then [] :: pySplit c xs
    else
      match pySplit c xs with
      | [] => [[x]]
      | s :: ss => (x :: s) :: ss

/-- `str.replace(ab, rep)` for a two-character pattern, scanning left to
right without overlap, exactly as CPython does. -/
def pyReplace2 (a b : Char) (rep : List Char) : List Char → List Char
  | [] => []
  | [x] => [x]
  | x :: y :: rest =>
    if x = a ∧ y = b then rep ++ pyReplace2 a b rep rest
    else x :: pyReplace2 a b rep (y :: rest)

/-- Digits of a Python `int()` literal body. -/
def digitsToNat? (ds : List Char) : Option Nat :=
  if ds ≠ [] ∧ ds.all Char.isDigit then
    some (ds.foldl (fun a c => a * 10 + (c.toNat - '0'.toNat)) 0)
  else none

/-- Python `int(str)`: surrounding whitespace, optional sign, digits;
raises `ValueError` otherwise.  (PEP 515 underscore grouping is not
modelled; no input in this development contains it.) -/
def pyInt (s : List Char) : Except PyErr Int :=
  match stripWs s with
  | '+' :: ds =>
    match digitsToNat? ds with
    | some n => .ok (n : Int)
    | none => .error .valueError
  | '-' :: ds =>
    match digitsToNat? ds with
    | some n => .ok (-(n : Int))
    | none => .error .valueError
  | ds =>
    match digitsToNat? ds with
    | some n => .ok (n : Int)
    | none => .error .valueError

/-- First-match association lookup, the behaviour of a Python dict built
from distinct keys. -/
def lookupAssoc (kvs : List (String × JsonValue)) (s : String) : Option JsonValue :=
  match kvs with
  | [] => none
  | (a, b) :: rest => if a = s then some b else lookupAssoc rest s

/-- Python subscription `obj[key]` for a non-slice key, with the exception
kind CPython raises on each shape mismatch. -/
def pyGetItem (dv : JsonValue) (k : SelKey) : Except PyErr JsonValue :=
  match dv, k with
  | .obj kvs, .strKey s =>
    match lookupAssoc kvs s with
    | some v => .ok v
    | none => .error .keyError
  | .obj _, .intKey _ => .error .keyError
  | .arr xs, .intKey i =>
    let n : Int := xs.length
    let j := if i < 0 then i + n else i
    if 0 ≤ j ∧ j < n then .ok (xs.getD j.toNat .null) else .error .indexError
  | .arr _, .strKey _ => .error .typeError
  | .str s, .intKey i =>
    let n : Int := s.length
    let j := if i < 0 then i + n else i
    if 0 ≤ j ∧ j < n then .ok (.str (String.mk [s.data.getD j.toNat ' '])) else .error .indexError
  | .str _, .strKey _ => .error .typeError
  | _, _ => .error .typeError

/-- The index walk of CPython slicing: emit `i, i+step, ...` while inside
the stop bound.  The fuel is always called with `length + 1`, an upper
bound on the number of emitted indices after clamping. -/
def sliceIdx : Nat → Int → Int → Int → List Int
  | 0, _, _, _ => []
  | fu + 1, i, stop, step =>
    if (0 < step ∧ i < stop) ∨ (step < 0 ∧ stop < i) then
      i :: sliceIdx fu (i + step) stop step
    else []

/-- CPython `list[slice(a, b, c)]`: `PySlice.indices` clamping followed by
the index walk.  Step `0` raises `ValueError`. -/
def applySlice {α : Type} (a b c : Option Int) (xs : List α) : Except PyErr (List α) :=
  let step := c.getD 1
  if step = 0 then .error .valueError
  else
    let n : Int := xs.length
    let lower : Int := if step < 0 then -1 else 0
    let upper : Int := if step < 0 then n - 1 else n
    let start := match a with
      | Option.none => if step < 0 then upper else lower
      | Option.some s => if s < 0 then max (s + n) lower else min s upper
    let stop := match b with
      | Option.none => if step < 0 then lower else upper
      | Option.some s => if s < 0 then max (s + n) lower else min s upper
    .ok ((sliceIdx (xs.length + 1) start stop step).filterMap (fun i => xs.get? i.toNat))

/-- `data.value[node.value]` for a slice key, followed by iteration of the
result: a sliced list yields its elements, a sliced string yields its
characters as one-character strings, dicts and scalars raise `TypeError`. -/
def pyGetSliceIter (dv : JsonValue) (a b c : Option Int) : Except PyErr (List JsonValue) :=
  match dv with
  | .arr xs => applySlice a b c xs
  | .str s => (applySlice a b c s.data).map (·.map (fun ch => .str (String.mk [ch])))
  | _ => .error .typeError

/-! ## Evaluator (`get_value`, `get_node_value`, `JsonPath.find`) -/

/-- One key lookup of `IndexNodeType.get_value`: direct subscription, and
on failure a retry after `int(val)` conversion; every exception kind in
either attempt is caught and means "no match for this key". -/
def indexLookupKey (dv : JsonValue) (k : SelKey) : Option JsonValue :=
  match pyGetItem dv k with
  | .ok v => some v
  | .error _ =>
    match k with
    | .intKey i => (pyGetItem dv (.intKey i)).toOption
    | .strKey s =>
      match pyInt s.data with
      | .ok i => (pyGetItem dv (.intKey i)).toOption
      | .error _ => none

/-- `Operator.transform`: `UnionOperator` and a plain list keep the
accumulated values, `OrOperator` keeps `[value[0]]` (or `[]` when the
`IndexError` is swallowed by the `finally`). -/
def applyComb : Comb → List MValue → List MValue
  | .plain, v => v
  | .union, v => v
  | .alternation, [] => []
  | .alternation, x :: _ => [x]

/-- `node.type.get_value(node, data, root)` for a single `Match` (or
`MatchNotFound`) argument.  The node classes without an override inherit
`BaseNodeType.get_value`, which raises `NotImplementedError`. -/
def get_value (node : Node) (data root : MValue) : Except PyErr (List MValue) :=
  match node.type with
  | .root => .ok [root]
  | .selfNode => .error .notImplemented
  | .descendant => .error .notImplemented
  | .expression => .error .notImplemented
  | .filterNode => .error .notImplemented
  | .wildcard =>
    .ok (match data.value with
      | .arr xs => xs.map (fun v => .m v .none)
      | .obj kvs => kvs.map (fun kv => .m kv.2 .none)
      | _ => [.notFound])
  | .sliceNode =>
    match node.value with
    | .slice a b c =>
      match pyGetSliceIter data.value a b c with
      | .ok l => .ok (l.map (fun v => .m v .none))
      | .error .valueError => .error .valueError
      | .error _ => .ok [.notFound]
    | _ => .ok [.notFound]
  | .index =>
    match node.value with
    | .keys comb ks =>
      .ok (applyComb comb ((ks.filterMap (fun k => indexLookupKey data.value k)).map
        (fun v => MValue.m v .none)))
    | _ => .error .typeError

/-- `if not value: value = [MatchNotFound()]` in `get_node_value`. -/
def padEmpty : List MValue → List MValue
  | [] => [.notFound]
  | l => l

/-- The evaluator's running data: a single `Match` object (the seed) or a
flat list of matches (every later stage).  Python distinguishes the two by
attempting iteration and catching `TypeError`. -/
inductive EData where
  | single (m : MValue)
  | list (ms : List MValue)

def EData.toList : EData → List MValue
  | .single m => [m]
  | .list ms => ms

/-- `get_node_value(node, data, root)`: fan out over a list argument,
dispatch on a single one; `_join_lists` flattens the per-element results
one level, and an empty result is replaced by `[MatchNotFound()]`. -/
def get_node_value (node : Node) (data : EData) (root : MValue) :
    Except PyErr (List MValue) :=
  match data with
  | .single m => (get_value node m root).map padEmpty
  | .list ms =>
    (ms.mapM (fun m => (get_value node m root).map padEmpty)).map
      (fun vss => padEmpty vss.flatten)

/-- The `while nodes:` loop of `JsonPath.find`, returning the value of the
last node application. -/
def evalSeq : List Node → EData → MValue → Except PyErr (List MValue)
  | [], d, _ => .ok d.toList
  | n :: rest, d, root =>
    (get_node_value n d root).bind (fun v => evalSeq rest (.list v) root)

/-- The seed `Match(data, ROOT_SYMBOL)`. -/
def rootMatch (data : JsonValue) : MValue := .m data (some "$")

/-- `JsonPath.find`: run the nodes over the wrapped document, then drop
every `MatchNotFound` from the final list. -/
def find (p : JsonPath) (data : JsonValue) : Except PyErr (List MValue) :=
  if p.nodes.isEmpty then .ok []
  else
    (evalSeq p.nodes (.single (rootMatch data)) (rootMatch data)).map
      (·.filter (fun v => !v.isNotFound))

/-! ## Lexer (`tokenize`) -/

/-- The scanning state of `tokenize`: `previous_char` (initially the empty
string, modelled `none`), the one-shot `escaped` flag, the `quoted`,
`bracketed` and `expression` flags and `quote_used`. -/
structure TokSt where
  prev : Option Char
  escaped : Bool
  quoted : Bool
  bracketed : Bool
  expression : Bool
  quote : Option Char

def TokSt.init : TokSt :=
  ⟨Option.none, false, false, false, false, Option.none⟩

/-- The character loop of `tokenize`, with the accumulating token buffer
as an explicit argument; emitted tokens are collected in order, and the
final buffer is emitted when non-empty. -/
def tokenizeAux (st : TokSt) (tok : List Char) : List Char → List (List Char)
  | [] => if tok ≠ [] then [tok] else []
  | c :: rest =>
    if st.escaped then
      let tok' := if c ∈ [',', ':', '|'] then tok ++ ['\\', c] else tok ++ [c]
      tokenizeAux { st with escaped := false, prev := some c } tok' rest
    else if st.quoted then
      let tok1 := if c ∈ [',', ':', '|', '\\'] then tok ++ ['\\'] else tok
      if some c = st.quote then
        let tok2 := if st.expression then tok1 ++ [c] else tok1
        tokenizeAux { st with quoted := false, prev := some c } tok2 rest
      else
        tokenizeAux { st with prev := some c } (tok1 ++ [c]) rest
    else if c = '\\' then
      tokenizeAux { st with escaped := true, prev := some c } tok rest
    else if c = '\'' ∨ c = '"' then
      let tok' := if st.expression then tok ++ [c] else tok
      tokenizeAux { st with quote := some c, quoted := !st.quoted, prev := some c } tok' rest
    else if c = '[' then
      (if tok ≠ [] then [tok] else []) ++
        tokenizeAux { st with bracketed := true, prev := some c } [c] rest
    else if c = ']' then
      [tok ++ [c]] ++ tokenizeAux { st with bracketed := false, prev := some c } [] rest
    else if c = '(' then
      tokenizeAux { st with expression := true, prev := some c } (tok ++ [c]) rest
    else if c = ')' then
      tokenizeAux { st with expression := false, prev := some c } (tok ++ [c]) rest
    else if st.bracketed then
      tokenizeAux { st with prev := some c } (tok ++ [c]) rest
    else if c = '$' then
      [['$']] ++ tokenizeAux { st with prev := some c } [] rest
    else if c = '.' then
      (if st.prev = some '.' then [['.', '.']] else if tok ≠ [] then [tok] else []) ++
        tokenizeAux { st with prev := some c } [] rest
    else
      tokenizeAux { st with prev := some c } (tok ++ [c]) rest

/-- `tokenize(query)`: strip the query, then scan. -/
def tokenize (query : List Char) : List (List Char) :=
  tokenizeAux TokSt.init [] (stripWs query)

/-! ## Parser (`parse`) -/

/-- The two-phase body of `escaped_split`'s list comprehension: re-append
the separator to any piece whose text ends with a backslash. -/
def addSep (c : Char) (sec : List Char) : List Char :=
  if sec.getLast? = some '\\' then sec ++ [c] else sec

/-- The index-accumulation loop of `escaped_split`: a section ending in
the separator extends the current result slot, any other section closes
it.  (The Python version writes into a pre-sized list of empty strings;
the slots it never fills, and the pending empty slot, are exactly the `[]`
entries produced here, and `clean_list` removes them either way.) -/
def fillSlots (c : Char) (cur : List Char) : List (List Char) → List (List Char)
  | [] => [cur]
  | s :: rest =>
    if s.getLast? = some c then fillSlots c (cur ++ s) rest
    else (cur ++ s) :: fillSlots c [] rest

/-- `clean_list(data)`: drop exact empty strings, strip the rest. -/
def clean_list (data : List (List Char)) : List (List Char) :=
  (data.filter (· ≠ [])).map stripWs

/-- `escaped_split(string, char)`. -/
def escaped_split (s : List Char) (c : Char) : List (List Char) :=
  clean_list (fillSlots c [] ((pySplit c s).map (addSep c)))

/-- The chained `str.replace` calls that unescape a selector key:
`\\ \\` → `\\`, then `\\,` → `,`, `\\|` → `|`, `\\:` → `:`. -/
def unescapeVal (l : List Char) : List Char :=
  pyReplace2 '\\' ':' [':']
    (pyReplace2 '\\' '|' ['|']
      (pyReplace2 '\\' ',' [',']
        (pyReplace2 '\\' '\\' ['\\'] l)))

/-- Strip-then-unescape applied to each selector piece. -/
def processKeyPiece (val : List Char) : List Char :=
  unescapeVal (stripSpace val)

/-- The `if node_type == IdentifierNodeType:` block of `parse`: union
split, alternation split, per-piece strip and unescape, and the operator
tag.  `value[0]` on an empty split result raises `IndexError`. -/
def processIdentifier (value : List Char) : Except PyErr Node :=
  let v1 := escaped_split value ','
  if 1 < v1.length then
    .ok ⟨.index, .keys .union (v1.map (fun v => SelKey.strKey (String.mk (processKeyPiece v))))⟩
  else
    match v1.head? with
    | Option.none => .error .indexError
    | Option.some s0 =>
      let v2 := escaped_split s0 '|'
      if 1 < v2.length then
        .ok ⟨.index, .keys .alternation
          (v2.map (fun v => SelKey.strKey (String.mk (processKeyPiece v))))⟩
      else
        .ok ⟨.index, .keys .plain
          (v2.map (fun v => SelKey.strKey (String.mk (processKeyPiece v))))⟩

/-- The token classification of `parse`, one loop iteration.  `slice(*l)`
with zero or more than three arguments raises `TypeError`. -/
def parseToken (token : List Char) : Except PyErr Node :=
  if token = ['$'] then .ok ⟨.root, .noval⟩
  else if token = ['.', '.'] then .ok ⟨.descendant, .noval⟩
  else if token.head? = some '[' ∧ token.getLast? = some ']' then
    if ':' ∈ pyReplace2 '\\' ':' [] token then
      match ((pySplit ':' ((token.drop 1).dropLast)).filter (· ≠ [])).mapM pyInt with
      | .ok [a] => .ok ⟨.sliceNode, .slice Option.none (some a) Option.none⟩
      | .ok [a, b] => .ok ⟨.sliceNode, .slice (some a) (some b) Option.none⟩
      | .ok [a, b, c] => .ok ⟨.sliceNode, .slice (some a) (some b) (some c)⟩
      | .ok _ => .error .typeError
      | .error _ => processIdentifier ((token.drop 1).dropLast)
    else if '*' ∈ token then .ok ⟨.wildcard, .noval⟩
    else if token.get? 1 = some '(' ∧ token.dropLast.getLast? = some ')' then
      .ok ⟨.expression, .raw (String.mk ((token.drop 2).dropLast.dropLast))⟩
    else if token.get? 1 = some '?' ∧ token.get? 2 = some '(' ∧
        token.dropLast.getLast? = some ')' then
      .ok ⟨.filterNode, .raw (String.mk ((token.drop 3).dropLast.dropLast))⟩
    else
      match pyInt ((token.drop 1).dropLast) with
      | .ok n => .ok ⟨.index, .keys .plain [.intKey n]⟩
      | .error _ => processIdentifier (stripWs ((token.drop 1).dropLast))
  else
    let value := stripWs token
    if value = ['*'] then .ok ⟨.wildcard, .noval⟩
    else processIdentifier value

/-- `parse(query)`. -/
def parse (query : List Char) : Except PyErr JsonPath :=
  ((tokenize query).mapM parseToken).map JsonPath.mk

/-- `parse(query).find(data)`. -/
def parseFind (query : String) (data : JsonValue) : Except PyErr (List MValue) :=
  (parse query.data).bind (fun p => find p data)

/-! ## The `Match` constructor (for the wrapping claim)

`Match.__init__` probes `value.value`; to state anything about nesting,
the argument type must itself be able to nest, so the constructor is
modelled on a free Python-object type. -/

/-- A Python object that can reach `Match.__init__`: a document value, a
`Match` instance (payload and path), or the `MatchNotFound` sentinel. -/
inductive PyObj where
  | json (v : JsonValue)
  | matchObj (value : PyObj) (path : Option String)
  | matchNotFound

/-- `Match.__init__(self, value, path)`: when the argument has a `.value`
attribute it is copied (one unwrap level: a `Match` contributes its
payload, `MatchNotFound` its `None`); otherwise the `AttributeError` path
stores the raw value. -/
def MatchInit (value : PyObj) (path : Option String) : PyObj :=
  match value with
  | .matchObj v _ => .matchObj v path
  | .matchNotFound => .matchObj (.json .null) path
  | .json v => .matchObj (.json v) path

/-- The `.value` attribute of a wrapper object, when present. -/
def PyObj.valueAttr : PyObj → Option PyObj
  | .matchObj v _ => some v
  | .matchNotFound => some (.json .null)
  | .json _ => Option.none

/-! ## Escaping a selector key (for the round-trip claim)

`escapeKey` writes a literal key into query syntax by backslash-escaping
each comma, pipe, colon, backslash and dot; `encodeTok` is the token text
the lexer produces from that query (the lexer keeps the escape in front of
`, : |` and drops it in front of `\\ .`). -/

/-- Query spelling of one literal key character. -/
def escChar (c : Char) : List Char :=
  if c ∈ [',', ':', '|', '\\', '.'] then ['\\', c] else [c]

/-- Query spelling of a literal key. -/
def escapeKey (k : List Char) : List Char := (k.map escChar).flatten

/-- Token text the lexer produces for one escaped key character. -/
def encChar (c : Char) : List Char :=
  if c ∈ [',', ':', '|'] then ['\\', c] else [c]

/-- Token text the lexer produces for a whole escaped key. -/
def encodeTok (k : List Char) : List Char := (k.map encChar).flatten

/-- Key characters that survive the round trip: everything except the
lexer's other structural characters and whitespace. -/
def goodChar (c : Char) : Bool :=
  decide (c ∉ (['$', '\'', '"', '[', ']', '(', ')', '*'] : List Char)) && !c.isWhitespace

/-- No literal backslash directly followed by a backslash, comma, pipe or
colon (those pairs are corrupted by `escaped_split` / the chained
`replace` unescaping). -/
def noBadPair : List Char → Bool
  | x :: y :: rest =>
    decide (x = '\\' → y ∉ (['\\', ',', '|', ':'] : List Char)) && noBadPair (y :: rest)
  | _ => true

/-- The restricted key class of the amended round-trip claim. -/
def goodKey (k : List Char) : Bool :=
  !k.isEmpty && k.all goodChar && noBadPair k &&
    decide (k.getLast? ≠ some '\\') && decide (k ≠ ['.', '.'])

/-- The node kinds whose `get_value` is inherited from `BaseNodeType`. -/
def NodeType.isUnimplemented : NodeType → Bool
  | .selfNode | .descendant | .expression | .filterNode => true
  | _ => false

/-! # Theorems -/

/-! ## Basic evaluator lemmas -/

theorem padEmpty_ne_nil (l : List MValue) : padEmpty l ≠ [] := by
  cases l <;> simp [padEmpty]

theorem padEmpty_idem (l : List MValue) : padEmpty (padEmpty l) = padEmpty l := by
  cases l <;> simp [padEmpty]

theorem get_node_value_ok_ne_nil {n : Node} {d : EData} {r : MValue} {l : List MValue}
    (h : get_node_value n d r = .ok l) : l ≠ [] := by
  cases d with
  | single m =>
    cases hg : get_value n m r with
    | error e => rw [get_node_value, hg] at h; exact Except.noConfusion h
    | ok w =>
      rw [get_node_value, hg] at h
      cases h
      exact padEmpty_ne_nil w
  | list ms =>
    cases hg : ms.mapM (fun m => (get_value n m r).map padEmpty) with
    | error e => rw [get_node_value, hg] at h; exact Except.noConfusion h
    | ok vss =>
      rw [get_node_value, hg] at h
      cases h
      exact padEmpty_ne_nil vss.flatten

theorem get_node_value_single_eq (n : Node) (m r : MValue) :
    get_node_value n (.single m) r = get_node_value n (.list [m]) r := by
  rw [get_node_value, get_node_value]
  cases hg : get_value n m r with
  | error e => simp [hg, List.mapM.loop, Except.map, Except.bind, Except.pure]
  | ok w => simp [hg, List.mapM.loop, Except.map, Except.bind, Except.pure, padEmpty_idem]

theorem evalSeq_single_eq (ns : List Node) (m r : MValue) :
    evalSeq ns (.single m) r = evalSeq ns (.list [m]) r := by
  cases ns with
  | nil => rfl
  | cons n rest => rw [evalSeq, evalSeq, get_node_value_single_eq]

theorem evalSeq_append (xs ys : List Node) (d : EData) (r : MValue) :
    evalSeq (xs ++ ys) d r =
      (evalSeq xs d r).bind (fun v => evalSeq ys (.list v) r) := by
  induction xs generalizing d with
  | nil =>
    cases d with
    | single m =>
      show evalSeq ys (.single m) r = (Except.ok [m]).bind _
      rw [evalSeq_single_eq]
      rfl
    | list l => rfl
  | cons x xs ih =>
    show (get_node_value x d r).bind _ = ((get_node_value x d r).bind _).bind _
    cases get_node_value x d r with
    | error e => rfl
    | ok v => exact ih (.list v)

theorem evalSeq_ok_ne_nil {ns : List Node} {d : EData} {r : MValue} {v : List MValue}
    (hne : ns ≠ []) (h : evalSeq ns d r = .ok v) : v ≠ [] := by
  induction ns generalizing d with
  | nil => exact absurd rfl hne
  | cons n rest ih =>
    rw [evalSeq] at h
    cases hg : get_node_value n d r with
    | error e => rw [hg] at h; exact Except.noConfusion h
    | ok w =>
      rw [hg] at h
      cases rest with
      | nil =>
        cases h
        exact get_node_value_ok_ne_nil hg
      | cons r2 rest2 => exact ih (by simp) h

/-! ## C9: wrapping is idempotent -/

/-- C9: `Match.__init__` unwraps an already-wrapped argument one level, so
the wrapper of a wrapper holds the same `.value` payload as the original
wrapper, and wrapping a plain value twice still produces exactly one
wrapper level over that value. -/
theorem wrapping_idempotent (w : PyObj) (v : JsonValue) (p p2 : Option String) :
    (MatchInit (MatchInit w p) p2).valueAttr = (MatchInit w p).valueAttr ∧
    MatchInit (MatchInit (.json v) p) p2 = .matchObj (.json v) p2 ∧
    MatchInit (.json v) p = .matchObj (.json v) p := by
  refine ⟨?_, rfl, rfl⟩
  cases w <;> rfl

/-! ## C6: node application output is never empty -/

/-- C6: `get_node_value` replaces an empty flattened result with the
single `MatchNotFound` sentinel, so the output collection of every node
application (that does not raise) is non-empty. -/
theorem node_output_nonempty (n : Node) (d : EData) (r : MValue) :
    (∀ l, get_node_value n d r = .ok l → l ≠ []) ∧
    (∀ ms vss, d = .list ms →
      ms.mapM (fun m => (get_value n m r).map padEmpty) = .ok vss →
      vss.flatten = [] → get_node_value n d r = .ok [.notFound]) := by
  constructor
  · intro l h
    exact get_node_value_ok_ne_nil h
  · intro ms vss hd hm hflat
    subst hd
    rw [get_node_value, hm, Except.map, hflat]
    rfl

/-- Witness for C6 at a concrete node application. -/
theorem node_output_nonempty_witness :
    get_node_value ⟨.root, .noval⟩ (.single (.m .null .none)) (.m .null .none) =
      .ok [.m .null .none] ∧ ([MValue.m .null .none] : List MValue) ≠ [] :=
  ⟨rfl, (node_output_nonempty ⟨.root, .noval⟩ (.single (.m .null .none)) (.m .null .none)).1
    [.m .null .none] rfl⟩

/-! ## C8: Root node versus the current result set -/

theorem flatten_const_singleton (ms : List MValue) (r : MValue) :
    (ms.map (fun _ => [r])).flatten = ms.map (fun _ => r) := by
  induction ms with
  | nil => rfl
  | cons m rest ih => simp [ih]

/-- C8 counterexample: on a fan-out batch of width 2, the Root node yields
a two-element collection (one copy of the wrapped root per batch element),
not a single-element collection; `find` for `*.$` on `[1, 2]` returns two
results. -/
theorem root_ignores_current_cex :
    find ⟨[⟨.wildcard, .noval⟩, ⟨.root, .noval⟩]⟩ (.arr [.num 1, .num 2]) =
      .ok [rootMatch (.arr [.num 1, .num 2]), rootMatch (.arr [.num 1, .num 2])] ∧
    (find ⟨[⟨.wildcard, .noval⟩, ⟨.root, .noval⟩]⟩ (.arr [.num 1, .num 2])).map
      List.length = .ok 2 := ⟨rfl, rfl⟩

/-- C8 amended: a Root node ignores the values in the current result set
but preserves its width: on the single seed it yields exactly the wrapped
root, while on a fan-out batch it yields one copy of the wrapped root per
batch element (the empty batch degenerates to `[MatchNotFound]`). -/
theorem root_node_amended (payload : NodeValue) (m r : MValue) (ms : List MValue) :
    get_node_value ⟨.root, payload⟩ (.single m) r = .ok [r] ∧
    get_node_value ⟨.root, payload⟩ (.list ms) r =
      .ok (if ms.isEmpty then [.notFound] else ms.map (fun _ => r)) := by
  constructor
  · rfl
  · have hmm : ms.mapM (fun m => (get_value ⟨.root, payload⟩ m r).map padEmpty) =
        .ok (ms.map (fun _ => [r])) := by
      induction ms with
      | nil => rfl
      | cons a rest ih => rw [List.mapM_cons, ih]; rfl
    rw [get_node_value, hmm]
    show Except.ok (padEmpty (ms.map (fun _ => [r])).flatten) = _
    rw [flatten_const_singleton]
    cases ms with
    | nil => rfl
    | cons a rest => rfl

/-! ## C10: bracketed token containing a wildcard -/

/-- C10: a bracket-delimited token with no unescaped slice separator that
contains `*` anywhere is classified as a Wildcard node with no payload,
all other interior text discarded. -/
theorem bracket_wildcard_classification (t : List Char)
    (h1 : t.head? = some '[') (h2 : t.getLast? = some ']')
    (h3 : ':' ∉ pyReplace2 '\\' ':' [] t) (h4 : '*' ∈ t) :
    parseToken t = .ok ⟨.wildcard, .noval⟩ := by
  have ht1 : t ≠ ['$'] := by intro e; rw [e] at h1; exact absurd h1 (by decide)
  have ht2 : t ≠ ['.', '.'] := by intro e; rw [e] at h1; exact absurd h1 (by decide)
  rw [parseToken, if_neg ht1, if_neg ht2, if_pos ⟨h1, h2⟩, if_neg h3, if_pos h4]

/-- Witness for C10 at the token `[ab*cd]`. -/
theorem bracket_wildcard_classification_witness :
    parseToken "[ab*cd]".data = .ok ⟨.wildcard, .noval⟩ :=
  bracket_wildcard_classification "[ab*cd]".data rfl rfl (by decide) (by decide)

/-! ## C4: the `@` token -/

theorem processIdentifier_ok_type {v : List Char} {n : Node}
    (h : processIdentifier v = .ok n) : n.type = .index := by
  rw [processIdentifier] at h
  dsimp only at h
  split at h
  · rw [← Except.ok.inj h]
  · split at h
    · exact Except.noConfusion h
    · split at h
      · rw [← Except.ok.inj h]
      · rw [← Except.ok.inj h]

theorem parseToken_ok_type_ne_self {t : List Char} {n : Node}
    (h : parseToken t = .ok n) : n.type ≠ .selfNode := by
  rw [parseToken] at h
  dsimp only at h
  repeat' split at h
  all_goals
    first
    | exact Except.noConfusion h
    | (injection h with h2; rw [← h2]; simp)
    | (rw [processIdentifier_ok_type h]; simp)

/-- C4 counterexample: the bare token `@` is parsed as an identifier
(Selector) node with the single key `"@"`, not as a Self node. -/
theorem self_symbol_parses_as_identifier_cex :
    parse "@".data = .ok ⟨[⟨.index, .keys .plain [.strKey "@"]⟩]⟩ ∧
    NodeType.index ≠ NodeType.selfNode := ⟨rfl, by decide⟩

/-- C4 amended: the parser classifies `@` as a Selector node with key
`"@"` (plain combinator); no token at all is ever classified as Self. -/
theorem self_symbol_amended :
    parse "@".data = .ok ⟨[⟨.index, .keys .plain [.strKey "@"]⟩]⟩ ∧
    ∀ (t : List Char) (n : Node), parseToken t = .ok n → n.type ≠ .selfNode :=
  ⟨rfl, fun _ _ h => parseToken_ok_type_ne_self h⟩

/-- Witness for the amended C4 at the token `@`. -/
theorem self_symbol_amended_witness :
    Node.type ⟨.index, .keys .plain [.strKey "@"]⟩ ≠ NodeType.selfNode :=
  self_symbol_amended.2 ['@'] ⟨.index, .keys .plain [.strKey "@"]⟩ rfl

/-! ## C5: the alternation combinator -/

theorem applyComb_alternation_take (l : List MValue) :
    applyComb .alternation l = l.take 1 := by
  cases l <;> rfl

theorem find_nonempty_eq {p : JsonPath} {data : JsonValue} (h : p.nodes ≠ []) :
    find p data = (evalSeq p.nodes (.single (rootMatch data)) (rootMatch data)).map
      (·.filter (fun v => !v.isNotFound)) := by
  rw [find, if_neg]
  simp [List.isEmpty_iff, h]

/-- C5: an alternation Selector accumulates one wrapped value per key that
resolves, in key order, and keeps only the first accumulated value; when
no key resolves, the accumulated list is empty and the overall `find`
result is empty (after `NotFound` substitution and final filtering) rather
than an error. -/
theorem alternation_keeps_first (ks : List SelKey) (m r : MValue) :
    get_value ⟨.index, .keys .alternation ks⟩ m r =
      .ok (((ks.filterMap (fun k => indexLookupKey m.value k)).map
        (fun v => MValue.m v Option.none)).take 1) ∧
    ∀ doc : JsonValue, ks.filterMap (fun k => indexLookupKey doc k) = [] →
      find ⟨[⟨.index, .keys .alternation ks⟩]⟩ doc = .ok [] := by
  constructor
  · show Except.ok (applyComb .alternation _) = _
    rw [applyComb_alternation_take]
  · intro doc h
    have hval : get_value ⟨.index, .keys .alternation ks⟩ (rootMatch doc) (rootMatch doc) =
        .ok [] := by
      show Except.ok (applyComb .alternation ((ks.filterMap
        (fun k => indexLookupKey doc k)).map (fun v => MValue.m v Option.none))) = _
      rw [h]
      rfl
    show (evalSeq [⟨.index, .keys .alternation ks⟩] (.single (rootMatch doc))
      (rootMatch doc)).map (·.filter (fun v => !v.isNotFound)) = _
    rw [evalSeq, get_node_value, hval]
    rfl

/-- Witness for C5: spec example 6 with neither key present. -/
theorem alternation_keeps_first_witness :
    find ⟨[⟨.index, .keys .alternation [.strKey "level2", .strKey "level3"]⟩]⟩
      (.obj []) = .ok [] :=
  (alternation_keeps_first [.strKey "level2", .strKey "level3"] .notFound .notFound).2
    (.obj []) rfl

/-! ## C1: slice tokens with one omitted bound -/

/-- C1: evaluating the code at the failing input.  The token `[1:]`
parses to the Python value `slice(1)`, i.e. start unset and stop 1, so on
`[10, 20, 30]` the query `[1:]` returns `[10]` (the prefix before index
1), exactly like `[:1]`, instead of the claimed suffix `[20, 30]`; the
`[:e]` direction does behave as claimed. -/
theorem slice_start_token_evaluates_as_stop :
    parse "[1:]".data = .ok ⟨[⟨.sliceNode, .slice Option.none (some 1) Option.none⟩]⟩ ∧
    parseFind "[1:]" (.arr [.num 10, .num 20, .num 30]) = .ok [.m (.num 10) Option.none] ∧
    parseFind "[:1]" (.arr [.num 10, .num 20, .num 30]) = .ok [.m (.num 10) Option.none] ∧
    parseFind "[:2]" (.arr [.num 10, .num 20, .num 30]) =
      .ok [.m (.num 10) Option.none, .m (.num 20) Option.none] :=
  ⟨rfl, rfl, rfl, rfl⟩

/-! ## C2: unimplemented node kinds fail explicitly -/

theorem get_value_unimpl {n : Node} (h : n.type.isUnimplemented = true) (m r : MValue) :
    get_value n m r = .error .notImplemented := by
  obtain ⟨ty, val⟩ := n
  cases ty <;> first | rfl | simp [NodeType.isUnimplemented] at h

theorem mapM_all_error {β : Type} {ms : List MValue} {e : PyErr} (hne : ms ≠ [])
    {f : MValue → Except PyErr β} (hf : ∀ m, f m = .error e) :
    ms.mapM f = .error e := by
  cases ms with
  | nil => exact absurd rfl hne
  | cons a rest => rw [List.mapM_cons, hf a]; rfl

/-- C2: whenever evaluation reaches a node of kind Descendant, Expression,
Filter or Self (its prefix having evaluated without error), `find` fails
with the explicit `NotImplementedError` condition and never returns a
result list, so an unsupported query is distinguishable from a well-formed
query with no match. -/
theorem unimplemented_kind_errors (pre post : List Node) (n : Node) (data : JsonValue)
    (h1 : n.type.isUnimplemented = true)
    (h2 : ∃ d, evalSeq pre (.single (rootMatch data)) (rootMatch data) = .ok d) :
    find ⟨pre ++ n :: post⟩ data = .error .notImplemented ∧
    ∀ l, find ⟨pre ++ n :: post⟩ data ≠ .ok l := by
  obtain ⟨d, hd⟩ := h2
  have hdne : d ≠ [] := by
    cases pre with
    | nil =>
      rw [evalSeq] at hd
      cases hd
      simp [EData.toList]
    | cons p ps => exact evalSeq_ok_ne_nil (by simp) hd
  have hfind : find ⟨pre ++ n :: post⟩ data = .error .notImplemented := by
    rw [find_nonempty_eq (by simp), evalSeq_append, hd]
    show (evalSeq (n :: post) (.list d) (rootMatch data)).map
      (·.filter (fun v => !v.isNotFound)) = _
    have hgnv : get_node_value n (.list d) (rootMatch data) = .error .notImplemented := by
      rw [get_node_value,
        mapM_all_error hdne (fun m => by rw [get_value_unimpl h1]; rfl)]
      rfl
    rw [evalSeq, hgnv]
    rfl
  exact ⟨hfind, fun l hl => by rw [hfind] at hl; exact Except.noConfusion hl⟩

/-- Witness for C2: the query `..` (a lone Descendant node). -/
theorem unimplemented_kind_errors_witness :
    find ⟨[] ++ ⟨.descendant, .noval⟩ :: []⟩ .null = .error .notImplemented :=
  (unimplemented_kind_errors [] [] ⟨.descendant, .noval⟩ .null rfl
    ⟨[rootMatch .null], rfl⟩).1

/-! ## C7: final filtering of `NotFound` -/

/-- C7: `find` returns exactly the entries of the final collection that
are not the `NotFound` sentinel, in their relative order (the result is a
sublist of the final collection), and no `NotFound` value appears in the
returned sequence. -/
theorem find_filters_notfound (p : JsonPath) (data : JsonValue) (r : List MValue)
    (h : find p data = .ok r) :
    (∀ v ∈ r, v.isNotFound = false) ∧
    ∃ vs, (if p.nodes.isEmpty then Except.ok []
        else evalSeq p.nodes (.single (rootMatch data)) (rootMatch data)) = .ok vs ∧
      r = vs.filter (fun v => !v.isNotFound) ∧ List.Sublist r vs := by
  by_cases hp : p.nodes = []
  · rw [find] at h
    rw [if_pos (by simp [hp])] at h
    cases h
    refine ⟨by simp, [], ?_, rfl, List.Sublist.refl []⟩
    rw [if_pos (by simp [hp])]
  · rw [find_nonempty_eq hp] at h
    cases he : evalSeq p.nodes (.single (rootMatch data)) (rootMatch data) with
    | error e => rw [he] at h; exact Except.noConfusion h
    | ok vs =>
      rw [he] at h
      have hr : r = vs.filter (fun v => !v.isNotFound) := (Except.ok.inj h).symm
      refine ⟨?_, vs, ?_, hr, ?_⟩
      · intro v hv
        rw [hr] at hv
        have := List.of_mem_filter hv
        simpa using this
      · rw [if_neg (by simp [List.isEmpty_iff, hp])]
      · rw [hr]
        exact List.filter_sublist vs

/-- Witness for C7 at a one-node query. -/
theorem find_filters_notfound_witness :
    (∀ v ∈ ([MValue.m (.num 1) Option.none] : List MValue), v.isNotFound = false) ∧
    ∃ vs, (if (JsonPath.mk [⟨.index, .keys .plain [.strKey "a"]⟩]).nodes.isEmpty
        then Except.ok []
        else evalSeq (JsonPath.mk [⟨.index, .keys .plain [.strKey "a"]⟩]).nodes
          (.single (rootMatch (.obj [("a", .num 1)])))
          (rootMatch (.obj [("a", .num 1)]))) = .ok vs ∧
      [MValue.m (.num 1) Option.none] = vs.filter (fun v => !v.isNotFound) ∧
      List.Sublist [MValue.m (.num 1) Option.none] vs :=
  find_filters_notfound ⟨[⟨.index, .keys .plain [.strKey "a"]⟩]⟩ (.obj [("a", .num 1)])
    [.m (.num 1) Option.none] rfl

/-! ## C3: the escaping round trip -/

/-- C3 counterexample: the key `a\\b` (letter a, two literal backslashes,
letter b), written with every backslash escaped as the query `a\\\\b`,
does not resolve: the chained `replace` unescaping collapses the doubled
backslash so the evaluator looks up `a\b`, and `find` returns the empty
list instead of the stored value. -/
theorem escaped_key_roundtrip_cex :
    parseFind "a\\\\\\\\b" (.obj [("a\\\\b", .num 1)]) = .ok [] ∧
    (Except.ok [] : Except PyErr (List MValue)) ≠
      Except.ok [MValue.m (.num 1) Option.none] :=
  ⟨rfl, by simp⟩

theorem escapeKey_cons (c : Char) (k : List Char) :
    escapeKey (c :: k) = escChar c ++ escapeKey k := by
  simp [escapeKey]

theorem encodeTok_cons (c : Char) (k : List Char) :
    encodeTok (c :: k) = encChar c ++ encodeTok k := by
  simp [encodeTok]

theorem mem_encodeTok {x : Char} {k : List Char} (hx : x ∈ encodeTok k) :
    x = '\\' ∨ x ∈ k := by
  rw [encodeTok, List.mem_flatten] at hx
  obtain ⟨s, hs, hxs⟩ := hx
  rw [List.mem_map] at hs
  obtain ⟨c, hc, rfl⟩ := hs
  rw [encChar] at hxs
  by_cases h : c ∈ ([',', ':', '|'] : List Char)
  · rw [if_pos h] at hxs
    simp at hxs
    rcases hxs with rfl | rfl
    · exact Or.inl rfl
    · exact Or.inr hc
  · rw [if_neg h] at hxs
    simp at hxs
    exact Or.inr (hxs ▸ hc)

theorem mem_escapeKey {x : Char} {k : List Char} (hx : x ∈ escapeKey k) :
    x = '\\' ∨ x ∈ k := by
  rw [escapeKey, List.mem_flatten] at hx
  obtain ⟨s, hs, hxs⟩ := hx
  rw [List.mem_map] at hs
  obtain ⟨c, hc, rfl⟩ := hs
  rw [escChar] at hxs
  by_cases h : c ∈ ([',', ':', '|', '\\', '.'] : List Char)
  · rw [if_pos h] at hxs
    simp at hxs
    rcases hxs with rfl | rfl
    · exact Or.inl rfl
    · exact Or.inr hc
  · rw [if_neg h] at hxs
    simp at hxs
    exact Or.inr (hxs ▸ hc)

theorem encChar_ne_nil (c : Char) : encChar c ≠ [] := by
  rw [encChar]
  split <;> simp

theorem encodeTok_ne_nil {k : List Char} (h : k ≠ []) : encodeTok k ≠ [] := by
  cases k with
  | nil => exact absurd rfl h
  | cons c rest =>
    rw [encodeTok_cons]
    intro he
    exact encChar_ne_nil c (List.append_eq_nil.1 he).1

theorem dropWhile_eq_self_of_none {p : Char → Bool} {l : List Char}
    (h : ∀ c ∈ l, p c = false) : l.dropWhile p = l := by
  cases l with
  | nil => rfl
  | cons a t => rw [List.dropWhile_cons, h a (by simp)]; simp

theorem stripBy_eq_self {p : Char → Bool} {l : List Char}
    (h : ∀ c ∈ l, p c = false) : stripBy p l = l := by
  rw [stripBy, dropWhile_eq_self_of_none h,
    dropWhile_eq_self_of_none (fun c hc => h c (List.mem_reverse.1 hc)),
    List.reverse_reverse]

/-! ### Tokenizer steps over an escaped key -/

theorem tok_step_escape (prev quote : Option Char) (tok rest : List Char) :
    tokenizeAux ⟨prev, false, false, false, false, quote⟩ tok ('\\' :: rest) =
      tokenizeAux ⟨some '\\', true, false, false, false, quote⟩ tok rest := rfl

theorem tok_step_escaped (prev quote : Option Char) (tok rest : List Char) (c : Char) :
    tokenizeAux ⟨prev, true, false, false, false, quote⟩ tok (c :: rest) =
      tokenizeAux ⟨some c, false, false, false, false, quote⟩ (tok ++ encChar c) rest := by
  show tokenizeAux ⟨some c, false, false, false, false, quote⟩
    (if c ∈ ([',', ':', '|'] : List Char) then tok ++ ['\\', c] else tok ++ [c]) rest = _
  rw [encChar]
  split
  · rfl
  · rfl

theorem tok_step_ordinary (prev quote : Option Char) (tok rest : List Char) (c : Char)
    (h1 : c ≠ '\\') (h2 : ¬(c = '\'' ∨ c = '"')) (h3 : c ≠ '[') (h4 : c ≠ ']')
    (h5 : c ≠ '(') (h6 : c ≠ ')') (h7 : c ≠ '$') (h8 : c ≠ '.') :
    tokenizeAux ⟨prev, false, false, false, false, quote⟩ tok (c :: rest) =
      tokenizeAux ⟨some c, false, false, false, false, quote⟩ (tok ++ [c]) rest := by
  rw [tokenizeAux]
  simp only [Bool.false_eq_true, if_false, h1, h2, h3, h4, h5, h6, h7, h8, if_neg,
    ite_false]

theorem goodChar_spec {c : Char} (h : goodChar c = true) :
    c ∉ (['$', '\'', '"', '[', ']', '(', ')', '*'] : List Char) ∧
      c.isWhitespace = false := by
  rw [goodChar, Bool.and_eq_true, decide_eq_true_iff, Bool.not_eq_true'] at h
  exact h

theorem tokenizeAux_escapeKey {k : List Char} (hch : ∀ c ∈ k, goodChar c = true) :
    ∀ (prev quote : Option Char) (tok : List Char),
      tokenizeAux ⟨prev, false, false, false, false, quote⟩ tok (escapeKey k) =
        if tok ++ encodeTok k = [] then [] else [tok ++ encodeTok k] := by
  induction k with
  | nil =>
    intro prev quote tok
    show (if tok ≠ [] then [tok] else []) = _
    simp only [encodeTok, List.map_nil, List.flatten_nil, List.append_nil]
    cases tok <;> simp
  | cons c k ih =>
    intro prev quote tok
    have hc := hch c (by simp)
    have hk : ∀ x ∈ k, goodChar x = true := fun x hx => hch x (by simp [hx])
    rw [escapeKey_cons]
    by_cases h5 : c ∈ ([',', ':', '|', '\\', '.'] : List Char)
    · rw [escChar, if_pos h5]
      have hsh : (['\\', c] : List Char) ++ escapeKey k = '\\' :: c :: escapeKey k := rfl
      rw [hsh, tok_step_escape, tok_step_escaped, ih hk, encodeTok_cons,
        ← List.append_assoc]
    · obtain ⟨hnotin, hnws⟩ := goodChar_spec hc
      simp only [List.mem_cons, List.not_mem_nil, or_false, not_or] at hnotin
      obtain ⟨hd, hq1, hq2, hbl, hbr, hpl, hpr, hst⟩ := hnotin
      have h1 : c ≠ '\\' := fun e => h5 (by rw [e]; simp)
      have h8 : c ≠ '.' := fun e => h5 (by rw [e]; simp)
      have hsep3 : c ∉ ([',', ':', '|'] : List Char) := fun e => h5 (by
        simp only [List.mem_cons, List.not_mem_nil, or_false] at e ⊢
        rcases e with e | e | e <;> simp [e])
      rw [escChar, if_neg h5]
      have hsh : ([c] : List Char) ++ escapeKey k = c :: escapeKey k := rfl
      rw [hsh, tok_step_ordinary prev quote tok (escapeKey k) c h1
        (by rintro (e | e) <;> [exact hq1 e; exact hq2 e]) hbl hbr hpl hpr hd h8,
        ih hk, encodeTok_cons, encChar, if_neg hsep3, ← List.append_assoc]

theorem tokenize_escapeKey {k : List Char} (hne : k ≠ [])
    (hch : ∀ c ∈ k, goodChar c = true) :
    tokenize (escapeKey k) = [encodeTok k] := by
  have hws : stripWs (escapeKey k) = escapeKey k := by
    apply stripBy_eq_self
    intro c hcm
    rcases mem_escapeKey hcm with rfl | hck
    · rfl
    · exact (goodChar_spec (hch c hck)).2
  rw [tokenize, hws]
  show tokenizeAux ⟨Option.none, false, false, false, false, Option.none⟩ [] _ = _
  rw [tokenizeAux_escapeKey hch]
  rw [List.nil_append]
  rw [if_neg (encodeTok_ne_nil hne)]

/-! ### `escaped_split` over an encoded key -/

theorem pySplit_not_mem {c : Char} {l : List Char} (h : c ∉ l) : pySplit c l = [l] := by
  induction l with
  | nil => rfl
  | cons x xs ih =>
    rw [pySplit, if_neg (fun e => h (by simp [e])), ih (fun hx => h (by simp [hx]))]

theorem pySplit_sep_split {c : Char} {x y : List Char} (h : c ∉ x) :
    pySplit c (x ++ c :: y) = x :: pySplit c y := by
  induction x with
  | nil =>
    rw [List.nil_append, pySplit, if_pos rfl]
  | cons a t ih =>
    have ha : a ≠ c := fun e => h (by simp [e])
    rw [List.cons_append, pySplit, if_neg ha, ih (fun hx => h (by simp [hx]))]

theorem encodeTok_getLast_ne_bs {k : List Char}
    (hlast : k.getLast? ≠ some '\\') : (encodeTok k).getLast? ≠ some '\\' := by
  induction k with
  | nil => simp [encodeTok]
  | cons c rest ih =>
    rw [encodeTok_cons]
    cases rest with
    | nil =>
      simp only [List.getLast?_singleton] at hlast
      show ((encChar c ++ encodeTok []) : List Char).getLast? ≠ some '\\'
      rw [show encodeTok [] = [] from rfl, List.append_nil, encChar]
      split
      · rename_i hmem
        simp only [List.mem_cons, List.not_mem_nil, or_false] at hmem
        rcases hmem with rfl | rfl | rfl <;> decide
      · simpa using hlast
    | cons r rs =>
      rw [List.getLast?_append_of_ne_nil _ (encodeTok_ne_nil (by simp))]
      exact ih (by rwa [List.getLast?_cons_cons] at hlast)

theorem fillSlots_encode {c : Char} (hc : c = ',' ∨ c = '|') :
    ∀ (k a : List Char), c ∉ a →
      (a ++ encodeTok k).getLast? ≠ some '\\' →
      ∀ cur, fillSlots c cur ((pySplit c (a ++ encodeTok k)).map (addSep c)) =
        [cur ++ (a ++ encodeTok k), []] := by
  intro k
  induction k with
  | nil =>
    intro a hca hlast cur
    rw [show encodeTok [] = [] from rfl, List.append_nil] at hlast ⊢
    rw [pySplit_not_mem hca, List.map_cons, List.map_nil]
    have hadd : addSep c a = a := by
      rw [addSep, if_neg hlast]
    have hgl : a.getLast? ≠ some c := by
      intro e
      obtain ⟨hh, he⟩ := List.mem_getLast?_eq_getLast (show c ∈ a.getLast? from e)
      exact hca (he ▸ List.getLast_mem hh)
    rw [hadd, fillSlots, if_neg hgl]
    rfl
  | cons x k ih =>
    intro a hca hlast cur
    by_cases hx : x = c
    · subst hx
      have hcsep : x ∈ ([',', ':', '|'] : List Char) := by
        rcases hc with rfl | rfl <;> decide
      have hcbs : x ≠ '\\' := by
        rcases hc with rfl | rfl <;> decide
      rw [encodeTok_cons, encChar, if_pos hcsep] at hlast ⊢
      have hsh : a ++ (['\\', x] ++ encodeTok k) = (a ++ ['\\']) ++ x :: encodeTok k := by
        simp
      rw [hsh]
      have hbs : x ∉ (a ++ ['\\'] : List Char) := by
        intro hmem
        rcases List.mem_append.1 hmem with h1 | h1
        · exact hca h1
        · simp at h1
          exact hcbs h1
      rw [pySplit_sep_split hbs, List.map_cons]
      have hglast : (a ++ ['\\'] : List Char).getLast? = some '\\' := by
        rw [List.getLast?_append_of_ne_nil _ (by simp)]
        rfl
      have haddsep : addSep x (a ++ ['\\']) = (a ++ ['\\']) ++ [x] := by
        rw [addSep, if_pos hglast]
      rw [haddsep, fillSlots,
        if_pos (by rw [List.getLast?_append_of_ne_nil _ (by simp)]; rfl)]
      have hihlast : (([] : List Char) ++ encodeTok k).getLast? ≠ some '\\' := by
        rw [List.nil_append]
        cases k with
        | nil => simp [encodeTok]
        | cons k1 ks =>
          have h1 : encodeTok (k1 :: ks) ≠ [] := encodeTok_ne_nil (by simp)
          rw [show a ++ (['\\', x] ++ encodeTok (k1 :: ks)) =
            (a ++ ['\\', x]) ++ encodeTok (k1 :: ks) from by simp,
            List.getLast?_append_of_ne_nil _ h1] at hlast
          exact hlast
      have hstep := ih [] (by simp) hihlast (cur ++ ((a ++ ['\\']) ++ [x]))
      rw [List.nil_append] at hstep
      rw [hstep]
      simp
    · rw [encodeTok_cons] at hlast ⊢
      have hsh : a ++ (encChar x ++ encodeTok k) = (a ++ encChar x) ++ encodeTok k := by
        simp
      rw [hsh] at hlast ⊢
      have hca' : c ∉ (a ++ encChar x : List Char) := by
        intro hmem
        rcases List.mem_append.1 hmem with h1 | h1
        · exact hca h1
        · rw [encChar] at h1
          split at h1
          · simp at h1
            rcases h1 with h1 | h1
            · rcases hc with rfl | rfl <;> exact absurd h1 (by decide)
            · exact hx h1.symm
          · simp at h1
            exact hx h1.symm
      have hstep := ih (a ++ encChar x) hca' hlast cur
      rw [hstep]

theorem stripWs_encodeTok {k : List Char} (hch : ∀ x ∈ k, goodChar x = true) :
    stripWs (encodeTok k) = encodeTok k := by
  apply stripBy_eq_self
  intro ch hm
  rcases mem_encodeTok hm with rfl | hck
  · rfl
  · exact (goodChar_spec (hch ch hck)).2

theorem escaped_split_encodeTok {c : Char} (hc : c = ',' ∨ c = '|') {k : List Char}
    (hne : k ≠ []) (hch : ∀ x ∈ k, goodChar x = true)
    (hlast : k.getLast? ≠ some '\\') :
    escaped_split (encodeTok k) c = [encodeTok k] := by
  have hfill := fillSlots_encode hc k [] (by simp)
    (by rw [List.nil_append]; exact encodeTok_getLast_ne_bs hlast) []
  simp only [List.nil_append] at hfill
  rw [escaped_split, hfill, clean_list]
  have h1 : encodeTok k ≠ [] := encodeTok_ne_nil hne
  simp only [List.filter_cons, List.filter_nil, h1, decide_True, decide_not,
    decide_eq_true_iff]
  simp only [if_pos h1, decide_False]
  simp [stripWs_encodeTok hch]

/-! ### Unescaping an encoded key -/

theorem pyReplace2_cons_ne {a b : Char} {rep : List Char} {x : Char} (r : List Char)
    (hx : x ≠ a) : pyReplace2 a b rep (x :: r) = x :: pyReplace2 a b rep r := by
  cases r with
  | nil => rfl
  | cons y t => rw [pyReplace2, if_neg (fun hand => hx hand.1)]

theorem pyReplace2_cons2_ne {a b : Char} {rep : List Char} {y : Char} (r : List Char)
    (hy : y ≠ b) : pyReplace2 a b rep (a :: y :: r) = a :: pyReplace2 a b rep (y :: r) := by
  rw [pyReplace2, if_neg (fun hand => hy hand.2)]

theorem pyReplace2_match {a b : Char} {rep : List Char} (r : List Char) :
    pyReplace2 a b rep (a :: b :: r) = rep ++ pyReplace2 a b rep r := by
  rw [pyReplace2, if_pos ⟨rfl, rfl⟩]

theorem unescape_cons_ord {c : Char} (hc : c ≠ '\\') (T : List Char) :
    unescapeVal (c :: T) = c :: unescapeVal T := by
  rw [unescapeVal, pyReplace2_cons_ne _ hc, pyReplace2_cons_ne _ hc,
    pyReplace2_cons_ne _ hc, pyReplace2_cons_ne _ hc]
  rfl

theorem unescape_esc_sep {c : Char} (hc : c ∈ ([',', ':', '|'] : List Char))
    (T : List Char) : unescapeVal ('\\' :: c :: T) = c :: unescapeVal T := by
  simp only [List.mem_cons, List.not_mem_nil, or_false] at hc
  rw [unescapeVal]
  rcases hc with rfl | rfl | rfl
  · rw [@pyReplace2_cons2_ne '\\' '\\' ['\\'] ',' T (by decide),
      @pyReplace2_cons_ne '\\' '\\' ['\\'] ',' T (by decide),
      pyReplace2_match, List.singleton_append,
      @pyReplace2_cons_ne '\\' '|' ['|'] ',' _ (by decide),
      @pyReplace2_cons_ne '\\' ':' [':'] ',' _ (by decide)]
    rfl
  · rw [@pyReplace2_cons2_ne '\\' '\\' ['\\'] ':' T (by decide),
      @pyReplace2_cons_ne '\\' '\\' ['\\'] ':' T (by decide),
      @pyReplace2_cons2_ne '\\' ',' [','] ':' _ (by decide),
      @pyReplace2_cons_ne '\\' ',' [','] ':' _ (by decide),
      @pyReplace2_cons2_ne '\\' '|' ['|'] ':' _ (by decide),
      @pyReplace2_cons_ne '\\' '|' ['|'] ':' _ (by decide),
      pyReplace2_match, List.singleton_append]
    rfl
  · rw [@pyReplace2_cons2_ne '\\' '\\' ['\\'] '|' T (by decide),
      @pyReplace2_cons_ne '\\' '\\' ['\\'] '|' T (by decide),
      @pyReplace2_cons2_ne '\\' ',' [','] '|' _ (by decide),
      @pyReplace2_cons_ne '\\' ',' [','] '|' _ (by decide),
      pyReplace2_match, List.singleton_append,
      @pyReplace2_cons_ne '\\' ':' [':'] '|' _ (by decide)]
    rfl

theorem unescape_bs_ord {d : Char} (hd : d ∉ (['\\', ',', '|', ':'] : List Char))
    (T : List Char) :
    unescapeVal ('\\' :: d :: T) = '\\' :: d :: unescapeVal T := by
  simp only [List.mem_cons, List.not_mem_nil, or_false, not_or] at hd
  obtain ⟨h1, h2, h3, h4⟩ := hd
  rw [unescapeVal,
    @pyReplace2_cons2_ne '\\' '\\' ['\\'] d T h1,
    @pyReplace2_cons_ne '\\' '\\' ['\\'] d T h1,
    @pyReplace2_cons2_ne '\\' ',' [','] d _ h2,
    @pyReplace2_cons_ne '\\' ',' [','] d _ h1,
    @pyReplace2_cons2_ne '\\' '|' ['|'] d _ h3,
    @pyReplace2_cons_ne '\\' '|' ['|'] d _ h1,
    @pyReplace2_cons2_ne '\\' ':' [':'] d _ h4,
    @pyReplace2_cons_ne '\\' ':' [':'] d _ h1]
  rfl

theorem noBadPair_tail {x : Char} {k : List Char} (h : noBadPair (x :: k) = true) :
    noBadPair k = true := by
  cases k with
  | nil => rfl
  | cons y rest =>
    rw [noBadPair, Bool.and_eq_true] at h
    exact h.2

theorem noBadPair_head {y : Char} {rest : List Char}
    (h : noBadPair ('\\' :: y :: rest) = true) :
    y ∉ (['\\', ',', '|', ':'] : List Char) := by
  rw [noBadPair, Bool.and_eq_true, decide_eq_true_iff] at h
  exact h.1 rfl

theorem unescape_encodeTok_aux : ∀ (n : Nat) (k : List Char), k.length ≤ n →
    (∀ x ∈ k, goodChar x = true) → noBadPair k = true → k.getLast? ≠ some '\\' →
    unescapeVal (encodeTok k) = k := by
  intro n
  induction n with
  | zero =>
    intro k hk _ _ _
    have : k = [] := List.length_eq_zero.1 (Nat.le_zero.1 hk)
    rw [this]
    rfl
  | succ n ih =>
    intro k hk hch hnb hlast
    cases k with
    | nil => rfl
    | cons c k2 =>
      by_cases hsep : c ∈ ([',', ':', '|'] : List Char)
      · rw [encodeTok_cons, encChar, if_pos hsep]
        have hsh : (['\\', c] : List Char) ++ encodeTok k2 = '\\' :: c :: encodeTok k2 := rfl
        rw [hsh, unescape_esc_sep hsep]
        have hlast2 : k2.getLast? ≠ some '\\' := by
          cases k2 with
          | nil => simp
          | cons d k3 => rwa [List.getLast?_cons_cons] at hlast
        rw [ih k2 (by simp at hk; omega) (fun x hx => hch x (by simp [hx]))
          (noBadPair_tail hnb) hlast2]
      · by_cases hbs : c = '\\'
        · subst hbs
          cases k2 with
          | nil => exact absurd rfl hlast
          | cons d k3 =>
            have hd : d ∉ (['\\', ',', '|', ':'] : List Char) := noBadPair_head hnb
            have hdsep : d ∉ ([',', ':', '|'] : List Char) := by
              intro hm
              simp only [List.mem_cons, List.not_mem_nil, or_false] at hm hd
              push_neg at hd
              rcases hm with rfl | rfl | rfl
              · exact hd.2.1 rfl
              · exact hd.2.2.2 rfl
              · exact hd.2.2.1 rfl
            rw [encodeTok_cons, encChar, if_neg (by decide),
              encodeTok_cons, encChar, if_neg hdsep]
            have hsh : (['\\'] : List Char) ++ ([d] ++ encodeTok k3) =
              '\\' :: d :: encodeTok k3 := rfl
            rw [hsh, unescape_bs_ord hd]
            have hlast3 : k3.getLast? ≠ some '\\' := by
              cases k3 with
              | nil => simp
              | cons e k4 =>
                rw [List.getLast?_cons_cons, List.getLast?_cons_cons] at hlast
                exact hlast
            have hres := ih k3 (by simp at hk; omega)
              (fun x hx => hch x (by simp [hx]))
              (noBadPair_tail (noBadPair_tail hnb)) hlast3
            -- rebuild the two consumed characters
            rw [show encodeTok k3 = encodeTok k3 from rfl, hres]
        · rw [encodeTok_cons, encChar, if_neg hsep]
          have hsh : ([c] : List Char) ++ encodeTok k2 = c :: encodeTok k2 := rfl
          rw [hsh, unescape_cons_ord hbs]
          have hlast2 : k2.getLast? ≠ some '\\' := by
            cases k2 with
            | nil => simp
            | cons d k3 => rwa [List.getLast?_cons_cons] at hlast
          rw [ih k2 (by simp at hk; omega) (fun x hx => hch x (by simp [hx]))
            (noBadPair_tail hnb) hlast2]

theorem unescape_encodeTok {k : List Char} (hch : ∀ x ∈ k, goodChar x = true)
    (hnb : noBadPair k = true) (hlast : k.getLast? ≠ some '\\') :
    unescapeVal (encodeTok k) = k :=
  unescape_encodeTok_aux k.length k (Nat.le_refl _) hch hnb hlast

/-! ### Parsing an encoded key token -/

theorem mem_encChar_subset {c : Char} {k : List Char} (hc : c ∈ k) :
    ∀ x ∈ encChar c, x ∈ encodeTok k := by
  intro x hx
  rw [encodeTok, List.mem_flatten]
  exact ⟨encChar c, List.mem_map_of_mem _ hc, hx⟩

theorem encodeTok_id {k : List Char}
    (h : ∀ c ∈ k, c ∉ ([',', ':', '|'] : List Char)) : encodeTok k = k := by
  induction k with
  | nil => rfl
  | cons c rest ih =>
    rw [encodeTok_cons, encChar, if_neg (h c (by simp)),
      ih (fun x hx => h x (by simp [hx])), List.singleton_append]

theorem goodKey_spec {k : List Char} (hk : goodKey k = true) :
    k ≠ [] ∧ (∀ x ∈ k, goodChar x = true) ∧ noBadPair k = true ∧
      k.getLast? ≠ some '\\' ∧ k ≠ ['.', '.'] := by
  rw [goodKey] at hk
  simp only [Bool.and_eq_true, decide_eq_true_iff, Bool.not_eq_true',
    List.isEmpty_eq_false, List.all_eq_true] at hk
  obtain ⟨⟨⟨⟨h1, h2⟩, h3⟩, h4⟩, h5⟩ := hk
  exact ⟨h1, h2, h3, h4, h5⟩

theorem parseToken_encodeTok {k : List Char} (hk : goodKey k = true) :
    parseToken (encodeTok k) = .ok ⟨.index, .keys .plain [.strKey (String.mk k)]⟩ := by
  obtain ⟨hne, hch, hnb, hlast, hdd⟩ := goodKey_spec hk
  have hfromk : ∀ c ∈ k, c ∉ (['$', '\'', '"', '[', ']', '(', ')', '*'] : List Char) :=
    fun c hc => (goodChar_spec (hch c hc)).1
  have hdollar : encodeTok k ≠ ['$'] := by
    intro he
    have : '$' ∈ encodeTok k := by rw [he]; simp
    rcases mem_encodeTok this with h1 | h1
    · exact absurd h1 (by decide)
    · exact hfromk '$' h1 (by decide)
  have hdots : encodeTok k ≠ ['.', '.'] := by
    intro he
    have hnobs : ∀ c ∈ k, c ∉ ([',', ':', '|'] : List Char) ∧ c ≠ '\\' := by
      intro c hc
      constructor
      · intro hmem
        have : '\\' ∈ encodeTok k :=
          mem_encChar_subset hc '\\' (by rw [encChar, if_pos hmem]; simp)
        rw [he] at this
        exact absurd this (by decide)
      · intro hbs
        have : '\\' ∈ encodeTok k := by
          apply mem_encChar_subset hc
          rw [hbs, encChar, if_neg (by decide)]
          simp
        rw [he] at this
        exact absurd this (by decide)
    rw [encodeTok_id (fun c hc => (hnobs c hc).1)] at he
    exact hdd he
  have hhead : (encodeTok k).head? ≠ some '[' := by
    cases k with
    | nil => exact absurd rfl hne
    | cons c rest =>
      rw [encodeTok_cons, encChar]
      split
      · intro he
        simp at he
      · have : c ≠ '[' := fun e => hfromk c (by simp) (by rw [e]; decide)
        intro he
        simp at he
        exact this he
  have hstar : encodeTok k ≠ ['*'] := by
    intro he
    have : '*' ∈ encodeTok k := by rw [he]; simp
    rcases mem_encodeTok this with h1 | h1
    · exact absurd h1 (by decide)
    · exact hfromk '*' h1 (by decide)
  have hsws := stripWs_encodeTok hch
  have hsspace : stripSpace (encodeTok k) = encodeTok k := by
    apply stripBy_eq_self
    intro c hm
    rcases mem_encodeTok hm with rfl | hck
    · rfl
    · have := (goodChar_spec (hch c hck)).2
      apply decide_eq_false
      intro hce
      rw [hce] at this
      exact absurd this (by decide)
  rw [parseToken, if_neg hdollar, if_neg hdots,
    if_neg (fun hand => hhead hand.1)]
  dsimp only
  rw [hsws, if_neg hstar, processIdentifier]
  dsimp only
  rw [escaped_split_encodeTok (Or.inl rfl) hne hch hlast]
  rw [if_neg (by simp)]
  simp only [List.head?_cons]
  rw [escaped_split_encodeTok (Or.inr rfl) hne hch hlast]
  rw [if_neg (by simp)]
  have hpkp : processKeyPiece (encodeTok k) = k := by
    rw [processKeyPiece, hsspace, unescape_encodeTok hch hnb hlast]
  simp [hpkp]

/-- C3 amended: for every non-empty key over characters other than the
lexer's other structural symbols (quotes, brackets, parentheses, `$`, `*`)
and whitespace, containing at least one of the five escapable characters,
with no literal backslash directly followed by a backslash, comma, pipe or
colon, no trailing backslash, and not the key `..`: backslash-escaping
each comma, pipe, colon, backslash and dot yields a query that tokenizes,
parses and evaluates on a map holding that exact literal key to the stored
value. -/
theorem escaped_key_roundtrip_amended (k : List Char) (v : JsonValue)
    (hk : goodKey k = true)
    (hsp : ∃ c ∈ k, c ∈ ([',', ':', '|', '\\', '.'] : List Char)) :
    parseFind (String.mk (escapeKey k)) (.obj [(String.mk k, v)]) =
      .ok [.m v Option.none] := by
  obtain ⟨hne, hch, hnb, hlast, hdd⟩ := goodKey_spec hk
  have hparse : parse (escapeKey k) =
      .ok ⟨[⟨.index, .keys .plain [.strKey (String.mk k)]⟩]⟩ := by
    rw [parse, tokenize_escapeKey hne hch, List.mapM_cons, parseToken_encodeTok hk]
    rfl
  show (parse (escapeKey k)).bind
    (fun p => find p (.obj [(String.mk k, v)])) = _
  rw [hparse]
  show find ⟨[⟨.index, .keys .plain [.strKey (String.mk k)]⟩]⟩
    (.obj [(String.mk k, v)]) = _
  have hval : get_value ⟨.index, .keys .plain [.strKey (String.mk k)]⟩
      (rootMatch (.obj [(String.mk k, v)])) (rootMatch (.obj [(String.mk k, v)])) =
      .ok [.m v Option.none] := by
    show Except.ok (applyComb .plain (([SelKey.strKey (String.mk k)].filterMap
      (fun key => indexLookupKey (JsonValue.obj [(String.mk k, v)]) key)).map
      (fun w => MValue.m w Option.none))) = _
    have hlook : indexLookupKey (JsonValue.obj [(String.mk k, v)])
        (.strKey (String.mk k)) = some v := by
      rw [indexLookupKey, pyGetItem, lookupAssoc, if_pos rfl]
    simp [hlook, applyComb]
  show (evalSeq [⟨.index, .keys .plain [.strKey (String.mk k)]⟩]
    (.single (rootMatch (.obj [(String.mk k, v)])))
    (rootMatch (.obj [(String.mk k, v)]))).map
      (·.filter (fun w => !w.isNotFound)) = _
  rw [evalSeq, get_node_value, hval]
  rfl

/-- Witness for the amended C3 at the key `a.b,c` (dot and comma escaped). -/
theorem escaped_key_roundtrip_amended_witness :
    parseFind (String.mk (escapeKey "a.b,c".data))
      (.obj [(String.mk "a.b,c".data, .num 7)]) = .ok [.m (.num 7) Option.none] :=
  escaped_key_roundtrip_amended "a.b,c".data (.num 7) (by decide)
    ⟨'.', by decide, by decide⟩

end UJsonPath
